import Mathlib

/-!
A shallow embedding of the coordination engine of the repository
(`core/orchestrator.py`, `core/agent_base.py`, the agents in `agents/`),
together with proofs about the claims of its specification.

Python dictionaries are modelled as insertion-ordered association lists with
unique keys (`Assoc`); Python values flowing through the engine are modelled
by the inductive type `PyVal`.  The language-model backend is an external
collaborator and is modelled as a function parameter
`gen : String → Except String String` (`Except.error` models a raised
exception).  `difflib.get_close_matches` / `SequenceMatcher.ratio` from the
Python standard library are modelled over `Rat` (CPython computes the ratio
in floating point; for the short strings involved the two orders coincide,
and difflib's autojunk heuristic, which is inert for queries shorter than
200 characters, is not modelled).
-/

/-- A Python value as it flows through the orchestrator: strings, ints,
booleans, `None`, lists and string-keyed dicts (JSON objects always have
string keys, and every dict built by the engine is string-keyed). -/
inductive PyVal where
  | str : String → PyVal
  | int : Int → PyVal
  | bool : Bool → PyVal
  | none : PyVal
  | list : List PyVal → PyVal
  | dict : List (String × PyVal) → PyVal

/-- A Python dict with value type `α`: an insertion-ordered association list. -/
abbrev Assoc (α : Type) := List (String × α)

/-- Dict lookup (`d[k]` / `k in d`): first binding of the key wins. -/
def Assoc.get? {α : Type} : Assoc α → String → Option α
  | [], _ => Option.none
  | (k, v) :: rest, key => if k = key then some v else Assoc.get? rest key

/-- Dict update (`d[k] = v`): replaces in place when the key is present
(CPython keeps the original slot), appends otherwise. -/
def Assoc.set {α : Type} : Assoc α → String → α → Assoc α
  | [], key, v => [(key, v)]
  | (k, w) :: rest, key, v =>
      if k = key then (key, v) :: rest else (k, w) :: Assoc.set rest key v

/-- Membership test (`k in d`). -/
def Assoc.contains {α : Type} (d : Assoc α) (key : String) : Bool :=
  (Assoc.get? d key).isSome

/-- Escapes a quote character and backslashes, as Python's `repr`/`json.dumps`
do for the characters that actually occur in this engine's strings. -/
def strEscape (q : Char) (s : String) : String :=
  String.mk (s.data.foldr
    (fun c acc => if c = '\\' ∨ c = q then '\\' :: c :: acc else c :: acc) [])

mutual

/-- Models Python's `repr` on `PyVal` (used by `str` on containers). -/
def pyRepr : PyVal → String
  | .str s => "\x27" ++ strEscape '\x27' s ++ "\x27"
  | .int n => toString n
  | .bool b => if b then "True" else "False"
  | .none => "None"
  | .list l => "[" ++ ", ".intercalate (pyReprList l) ++ "]"
  | .dict d => "\x7b" ++ ", ".intercalate (pyReprPairs d) ++ "\x7d"

/-- `repr` of each element of a list. -/
def pyReprList : List PyVal → List String
  | [] => []
  | v :: vs => pyRepr v :: pyReprList vs

/-- `repr` of each `key: value` pair of a dict. -/
def pyReprPairs : List (String × PyVal) → List String
  | [] => []
  | (k, v) :: ps =>
      ("\x27" ++ strEscape '\x27' k ++ "\x27: " ++ pyRepr v) :: pyReprPairs ps

end

/-- Models Python's `str` builtin: identity on strings, `repr` otherwise. -/
def pyStr : PyVal → String
  | .str s => s
  | v => pyRepr v

mutual

/-- Models `json.dumps` with default separators on `PyVal`. -/
def jsonDumps : PyVal → String
  | .str s => "\x22" ++ strEscape '\x22' s ++ "\x22"
  | .int n => toString n
  | .bool b => if b then "true" else "false"
  | .none => "null"
  | .list l => "[" ++ ", ".intercalate (jsonDumpsList l) ++ "]"
  | .dict d => "\x7b" ++ ", ".intercalate (jsonDumpsPairs d) ++ "\x7d"

/-- `json.dumps` of each element of a list. -/
def jsonDumpsList : List PyVal → List String
  | [] => []
  | v :: vs => jsonDumps v :: jsonDumpsList vs

/-- `json.dumps` of each `"key": value` pair of an object. -/
def jsonDumpsPairs : List (String × PyVal) → List String
  | [] => []
  | (k, v) :: ps =>
      ("\x22" ++ strEscape '\x22' k ++ "\x22: " ++ jsonDumps v) :: jsonDumpsPairs ps

end

/-! ### difflib: `SequenceMatcher.ratio` and `get_close_matches(n=1, cutoff=0.6)` -/

/-- Length of the common prefix of two character lists (the length of the
matching run starting at a given pair of positions). -/
def commonRunLen : List Char → List Char → Nat
  | a :: as, b :: bs => if a = b then commonRunLen as bs + 1 else 0
  | _, _ => 0

/-- `SequenceMatcher.find_longest_match` over whole lists: the triple
`(i, j, k)` of the longest matching block, earliest in `a` then earliest in
`b` among maximal blocks (difflib's documented tie-breaking; no junk). -/
def bestMatch (a b : List Char) : Nat × Nat × Nat :=
  (List.range a.length).foldl (fun best i =>
    (List.range b.length).foldl (fun best j =>
      let k := commonRunLen (a.drop i) (b.drop j)
      if best.2.2 < k then (i, j, k) else best) best) (0, 0, 0)

/-- Total size of all matching blocks (the `M` of `ratio = 2M/T`), computed by
difflib's recursive decomposition around the longest match.  The fuel argument
only serves termination; `matchTotal` supplies enough for full recursion. -/
def matchTotalF : Nat → List Char → List Char → Nat
  | 0, _, _ => 0
  | fuel + 1, a, b =>
    let m := bestMatch a b
    if m.2.2 = 0 then 0
    else
      matchTotalF fuel (a.take m.1) (b.take m.2.1) + m.2.2 +
        matchTotalF fuel (a.drop (m.1 + m.2.2)) (b.drop (m.2.1 + m.2.2))

/-- Total matched characters between two character lists. -/
def matchTotal (a b : List Char) : Nat :=
  matchTotalF (a.length + b.length + 1) a b

/-- `SequenceMatcher(a, b).ratio() = 2M/T`, over `Rat` (CPython uses floats;
the orders agree for all realistic sizes since `3/5` is attainable exactly). -/
def seqRatio (a b : String) : Rat :=
  let T := a.data.length + b.data.length
  if T = 0 then 1 else (2 * matchTotal a.data b.data : Nat) / (T : Rat)

/-- Lexicographic order on character lists, as Python compares strings. -/
def charListLt : List Char → List Char → Bool
  | [], [] => false
  | [], _ :: _ => true
  | _ :: _, [] => false
  | a :: as, b :: bs => if a < b then true else if b < a then false else charListLt as bs

/-- Python's `<` on strings (code-point lexicographic). -/
def strLtB (a b : String) : Bool := charListLt a.data b.data

/-- Python's `>` on `(ratio, name)` pairs, used by `heapq.nlargest(1, ·)`
(which reduces to `max`; ties on the ratio are broken by the larger name). -/
def tupleGtB (c b : Rat × String) : Bool :=
  if b.1 < c.1 then true else if c.1 = b.1 then strLtB b.2 c.2 else false

/-- `max` over scored candidates: keeps the first maximum in iteration order
(replaces the running best only on a strictly greater tuple). -/
def maxCand : Option (Rat × String) → List (Rat × String) → Option (Rat × String)
  | acc, [] => acc
  | Option.none, c :: rest => maxCand (some c) rest
  | some b, c :: rest => maxCand (some (if tupleGtB c b then c else b)) rest

/-- Scores one candidate of `get_close_matches`: kept, paired with its ratio,
exactly when its ratio reaches the cutoff `3/5` (difflib's quick-ratio
prefilters are upper bounds of `ratio`, so difflib's test reduces to
`ratio ≥ cutoff`). -/
def candScore (word x : String) : Option (Rat × String) :=
  if (3 : Rat) / 5 ≤ seqRatio x word then some (seqRatio x word, x) else Option.none

/-- `difflib.get_close_matches(word, poss, n=1, cutoff=0.6)`, returning the
head of the result list: the surviving candidates' single largest
`(ratio, name)` pair. -/
def getCloseMatches1 (word : String) (poss : List String) : Option String :=
  (maxCand Option.none (poss.filterMap (candScore word))).map Prod.snd

/-! ### The agent contract and the orchestrator -/

/-- An agent as the coordinator sees it (`BaseAgent`): a declared name and the
`process` operation.  `Except.error` models an exception escaping `process`;
`Except.ok` carries the returned value. -/
structure Agent where
  name : String
  process : Assoc PyVal → Except String PyVal

/-- A planned step (§3 of the spec): `{agent, instruction, input_data}`, with
`input_data` defaulting to `""` when absent (`step.get("input_data", "")`). -/
structure Step where
  agent : String
  instruction : String
  input_data : String

/-- `BaseAgent.validate_input`: reports whether all required keys are present;
it only logs a warning on a miss and never raises. -/
def validate_input (input_data : Assoc PyVal) (required_keys : List String) : Bool :=
  required_keys.all (fun k => Assoc.contains input_data k)

/-- `Orchestrator._get_agent_fuzzy`: exact registry lookup first, then fuzzy
matching via `difflib.get_close_matches(name, keys, n=1, cutoff=0.6)`. -/
def get_agent_fuzzy (agents : Assoc Agent) (name : String) : Option Agent :=
  match Assoc.get? agents name with
  | some a => some a
  | Option.none =>
    match getCloseMatches1 name (agents.map Prod.fst) with
    | some best => Assoc.get? agents best
    | Option.none => Option.none

/-- The context key `f"step_{i}{suffix}"` (suffix one of `_result`, `_agent`,
`_error`). -/
def stepKey (i : Nat) (suffix : String) : String :=
  "step_" ++ Nat.repr i ++ suffix

/-- Lines 105-113 of `orchestrator.py`: the `content_to_process` synthesis.
`str(last_result)` and `json.dumps` are modelled by `pyStr` / `jsonDumps`. -/
def content_to_process (input_source : String) (user_query : String)
    (last_result : PyVal) : PyVal :=
  if input_source = "USER_QUERY" then .str user_query
  else
    match last_result with
    | .dict d =>
      let c := PyVal.str (pyStr (.dict d))
      let c := match Assoc.get? d "analysis" with
               | some v => v
               | Option.none => c
      match Assoc.get? d "extracted_data" with
      | some v => PyVal.str (jsonDumps v)
      | Option.none => c
    | v => v

/-- Substring position test used by `strContainsSub`. -/
def subAt : List Char → List Char → Bool
  | _, [] => true
  | [], _ :: _ => false
  | h :: hs, s :: ss => h = s && subAt hs ss

/-- Substring search over character lists. -/
def hasSub : List Char → List Char → Bool
  | [], sub => subAt [] sub
  | h :: t, sub => subAt (h :: t) sub || hasSub t sub

/-- Python's `sub in hay` on strings. -/
def strContainsSub (hay sub : String) : Bool := hasSub hay.data sub.data

/-- Lines 116-125 of `orchestrator.py`: the payload handed to the resolved
agent. -/
def mkPayload (st : Step) (context : Assoc PyVal) (content : PyVal)
    (agentName : String) : Assoc PyVal :=
  [("instruction", .str st.instruction),
   ("context", .dict context),
   ("text", content),
   ("content", content),
   ("goal", .str st.instruction),
   ("fields", if strContainsSub agentName "Extraction"
              then .list [.str "summary", .str "entities"] else .list []),
   ("criteria", .str st.instruction)]

/-- One iteration of the execution loop (lines 88-138 of `orchestrator.py`),
acting on the pair `(context, last_result)`. -/
def execStep (agents : Assoc Agent) (user_query : String) (i : Nat) (st : Step)
    (s : Assoc PyVal × PyVal) : Assoc PyVal × PyVal :=
  match get_agent_fuzzy agents st.agent with
  | Option.none =>
      (Assoc.set s.1 (stepKey i "_error")
        (.str ("Agent " ++ st.agent ++ " not found")), s.2)
  | some ag =>
    let content := content_to_process st.input_data user_query s.2
    let payload := mkPayload st s.1 content ag.name
    match ag.process payload with
    | Except.ok result =>
        (Assoc.set (Assoc.set (Assoc.set s.1 (stepKey i "_result") result)
            (stepKey i "_agent") (.str ag.name)) ag.name result,
         result)
    | Except.error e =>
        (Assoc.set s.1 (stepKey i "_error") (.str e), s.2)

/-- The execution loop folded over the plan, carrying the step index. -/
def execLoop (agents : Assoc Agent) (user_query : String) :
    Nat → List Step → Assoc PyVal × PyVal → Assoc PyVal × PyVal
  | _, [], s => s
  | i, st :: rest, s =>
      execLoop agents user_query (i + 1) rest (execStep agents user_query i st s)

/-- The state entering the loop: `context = {"original_query": q}` and
`last_result = q`. -/
def initState (user_query : String) : Assoc PyVal × PyVal :=
  ([("original_query", .str user_query)], .str user_query)

/-- `Orchestrator.run`, parameterised by the outcome of `plan_task`
(`Except.error e` models `plan_task` raising with message `e`; `Except.ok`
carries the decoded step list). -/
def run (agents : Assoc Agent) (user_query : String)
    (planOutcome : Except String (List Step)) : Assoc PyVal :=
  match planOutcome with
  | Except.error e => [("error", PyVal.str ("Planning failed: " ++ e))]
  | Except.ok steps =>
      (execLoop agents user_query 0 steps (initState user_query)).1

/-- `Orchestrator.plan_task`, over the backend call's outcome (`genOutcome`;
`Except.error` models the transport exception raised by
`OllamaClient.generate`) and `json.loads` (`parse`; `Except.error` models
`json.JSONDecodeError`).  Both exceptions are re-raised after logging; a
non-dict JSON value makes `plan.get` raise `AttributeError`. -/
def plan_task (parse : String → Except String PyVal)
    (genOutcome : Except String String) : Except String PyVal :=
  match genOutcome with
  | Except.error e => Except.error e
  | Except.ok s =>
    match parse s with
    | Except.error e => Except.error e
    | Except.ok (.dict d) => Except.ok ((Assoc.get? d "steps").getD (.list []))
    | Except.ok _ => Except.error "AttributeError: get"

/-- Reads one planned step from its JSON-object form, as the run loop does via
`step.get`; `none` when the step is not an object with string `agent` and
`instruction` fields (outside the plan data model of §3).  A non-string
`input_data` behaves like the default `""` (it compares unequal to
`"USER_QUERY"`). -/
def stepOfVal : PyVal → Option Step
  | .dict d =>
    match Assoc.get? d "agent", Assoc.get? d "instruction" with
    | some (.str a), some (.str ins) =>
        some { agent := a, instruction := ins,
               input_data := match Assoc.get? d "input_data" with
                             | some (.str s) => s
                             | _ => "" }
    | _, _ => Option.none
  | _ => Option.none

/-- Decodes the value under `steps` into the plan the loop iterates over. -/
def decodeSteps : PyVal → Option (List Step)
  | .list vs => vs.mapM stepOfVal
  | _ => Option.none

/-- Whether step `st`, executed from state `s`, succeeds: its agent resolves
and `process` returns rather than raises (the step index plays no role). -/
def stepSucceeds (agents : Assoc Agent) (user_query : String)
    (st : Step) (s : Assoc PyVal × PyVal) : Bool :=
  match get_agent_fuzzy agents st.agent with
  | Option.none => false
  | some ag =>
    match ag.process (mkPayload st s.1
        (content_to_process st.input_data user_query s.2) ag.name) with
    | Except.ok _ => true
    | Except.error _ => false

/-- The loop state just before step `k` executes. -/
def statePair (agents : Assoc Agent) (user_query : String) (steps : List Step)
    (k : Nat) : Assoc PyVal × PyVal :=
  execLoop agents user_query 0 (steps.take k) (initState user_query)

/-- The sequence of contexts a run passes through, one entry per loop
iteration plus the final state. -/
def runTrace (agents : Assoc Agent) (user_query : String) :
    Nat → List Step → Assoc PyVal × PyVal → List (Assoc PyVal)
  | _, [], s => [s.1]
  | i, st :: rest, s =>
      s.1 :: runTrace agents user_query (i + 1) rest (execStep agents user_query i st s)

/-- Two successive calls of `_get_agent_fuzzy` against the same registry
state (the registry is read, never written, by resolution). -/
def resolveTwice (agents : Assoc Agent) (name : String) : Option Agent × Option Agent :=
  (get_agent_fuzzy agents name, get_agent_fuzzy agents name)

/-! ### `DocumentAnalysisAgent.process` -/

/-- Python slicing `v[:n]`: defined on strings and lists, a `TypeError` on the
other modelled values. -/
def pySlice (n : Nat) : PyVal → Except String PyVal
  | .str s => Except.ok (.str (s.take n))
  | .list l => Except.ok (.list (l.take n))
  | _ => Except.error "TypeError: unsliceable"

/-- The prompt built by `DocumentAnalysisAgent.process` from the sliced text
and the task value (`task == "summarize"` holds only for that string). -/
def docAnalysisPrompt (textSliced task : PyVal) : String :=
  match task with
  | .str "summarize" =>
      "Please provide a concise summary of the following document:\n\n"
        ++ pyStr textSliced ++ "..."
  | _ =>
      "Analyze the following document based on this instruction: "
        ++ pyStr task ++ "\n\nDocument:\n" ++ pyStr textSliced ++ "..."

/-- `DocumentAnalysisAgent.process`: validation only warns (its result is
discarded, as in the source); `input_data["text"]` raises `KeyError` when the
key is absent; slicing may raise; only the backend call sits inside the
`try`, whose failure is returned as `{"error": e}`. -/
def docAnalysisProcess (gen : String → Except String String)
    (input_data : Assoc PyVal) : Except String PyVal :=
  let _ := validate_input input_data ["text"]
  match Assoc.get? input_data "text" with
  | Option.none => Except.error "KeyError: text"
  | some t =>
    let task := (Assoc.get? input_data "task").getD (PyVal.str "summarize")
    match pySlice 10000 t with
    | Except.error e => Except.error e
    | Except.ok ts =>
      match gen (docAnalysisPrompt ts task) with
      | Except.ok resp => Except.ok (.dict [("analysis", .str resp)])
      | Except.error e => Except.ok (.dict [("error", .str e)])

/-! ### Dictionary lemmas -/

theorem Assoc.get?_set_self {α : Type} (d : Assoc α) (k : String) (v : α) :
    Assoc.get? (Assoc.set d k v) k = some v := by
  induction d with
  | nil => simp [Assoc.set, Assoc.get?]
  | cons p rest ih =>
    obtain ⟨k1, v1⟩ := p
    by_cases h : k1 = k <;> simp [Assoc.set, Assoc.get?, h, ih]

theorem Assoc.get?_set_ne {α : Type} (d : Assoc α) {k key : String} (v : α)
    (h : k ≠ key) : Assoc.get? (Assoc.set d k v) key = Assoc.get? d key := by
  induction d with
  | nil => simp [Assoc.set, Assoc.get?, h]
  | cons p rest ih =>
    obtain ⟨k1, v1⟩ := p
    by_cases h1 : k1 = k <;> simp [Assoc.set, Assoc.get?, h1, h, ih]

theorem Assoc.contains_set_mono {α : Type} (d : Assoc α) (k key : String) (v : α)
    (h : Assoc.contains d key = true) :
    Assoc.contains (Assoc.set d k v) key = true := by
  by_cases hk : k = key
  · subst hk; simp [Assoc.contains, Assoc.get?_set_self]
  · simpa [Assoc.contains, Assoc.get?_set_ne d v hk] using h

theorem Assoc.contains_set_elim {α : Type} (d : Assoc α) (k key : String) (v : α)
    (h : Assoc.contains (Assoc.set d k v) key = true) :
    key = k ∨ Assoc.contains d key = true := by
  by_cases hk : key = k
  · exact Or.inl hk
  · right
    rwa [Assoc.contains, Assoc.get?_set_ne d v (fun he => hk he.symm)] at h

theorem Assoc.get?_mem {α : Type} {d : Assoc α} {k : String} {v : α}
    (h : Assoc.get? d k = some v) : (k, v) ∈ d := by
  induction d with
  | nil => simp [Assoc.get?] at h
  | cons p rest ih =>
    obtain ⟨k1, v1⟩ := p
    by_cases h1 : k1 = k
    · subst h1
      simp [Assoc.get?] at h
      subst h
      exact List.mem_cons_self _ _
    · simp [Assoc.get?, h1] at h
      exact List.mem_cons_of_mem _ (ih h)

theorem Assoc.contains_of_mem_keys {α : Type} {d : Assoc α} {k : String}
    (h : k ∈ d.map Prod.fst) : Assoc.contains d k = true := by
  induction d with
  | nil => simp at h
  | cons p rest ih =>
    obtain ⟨k1, v1⟩ := p
    rw [List.map_cons] at h
    rcases List.mem_cons.mp h with h | h
    · subst h
      simp [Assoc.contains, Assoc.get?]
    · by_cases h1 : k1 = k
      · simp [Assoc.contains, Assoc.get?, h1]
      · simpa [Assoc.contains, Assoc.get?, h1] using ih h

/-! ### Decimal keys: `Nat.repr` is injective and digit-only -/

/-- Big-endian decimal digit characters of a natural number: the clean form
of core's fuelled `Nat.toDigitsCore`. -/
def digitsBE (n : Nat) : List Char :=
  if h : n < 10 then [Nat.digitChar n]
  else
    have : n / 10 < n := Nat.div_lt_self (by omega) (by omega)
    digitsBE (n / 10) ++ [Nat.digitChar (n % 10)]

theorem toDigitsCore_eq_digitsBE :
    ∀ (fuel n : Nat) (acc : List Char), n < fuel →
      Nat.toDigitsCore 10 fuel n acc = digitsBE n ++ acc := by
  intro fuel
  induction fuel with
  | zero => intro n acc h; omega
  | succ f ih =>
    intro n acc h
    by_cases h0 : n / 10 = 0
    · have hn : n < 10 := by omega
      simp [Nat.toDigitsCore, h0, digitsBE, hn, Nat.mod_eq_of_lt hn]
    · have hlt : n / 10 < n := Nat.div_lt_self (by omega) (by omega)
      have h1 : n / 10 < f := by omega
      have hge : ¬ n < 10 := by
        intro hc
        exact h0 (Nat.div_eq_of_lt hc)
      rw [Nat.toDigitsCore]
      simp only [h0, if_false]
      rw [ih (n / 10) _ h1]
      conv_rhs => rw [digitsBE]
      simp [hge, List.append_assoc]

theorem repr_data_eq (n : Nat) : (Nat.repr n).data = digitsBE n := by
  show (List.asString (Nat.toDigits 10 n)).data = digitsBE n
  rw [Nat.toDigits, toDigitsCore_eq_digitsBE (n + 1) n [] (by omega),
    List.append_nil]
  rfl

theorem digitChar_inj_lt :
    ∀ a < 10, ∀ b < 10, Nat.digitChar a = Nat.digitChar b → a = b := by decide

theorem digitsBE_lt {n : Nat} (h : n < 10) : digitsBE n = [Nat.digitChar n] := by
  rw [digitsBE]
  simp [h]

theorem digitsBE_ge {n : Nat} (h : ¬ n < 10) :
    digitsBE n = digitsBE (n / 10) ++ [Nat.digitChar (n % 10)] := by
  rw [digitsBE]
  simp [h]

theorem digitsBE_ne_nil (n : Nat) : digitsBE n ≠ [] := by
  by_cases h : n < 10
  · simp [digitsBE_lt h]
  · simp [digitsBE_ge h]

theorem digitsBE_inj : ∀ m n : Nat, digitsBE m = digitsBE n → m = n := by
  intro m
  induction m using Nat.strong_induction_on with
  | _ m ih =>
    intro n h
    by_cases hm : m < 10 <;> by_cases hn : n < 10
    · rw [digitsBE_lt hm, digitsBE_lt hn] at h
      simp at h
      exact digitChar_inj_lt m hm n hn h
    · rw [digitsBE_lt hm, digitsBE_ge hn] at h
      have hlen := congrArg List.length h
      have hpos := List.length_pos.mpr (digitsBE_ne_nil (n / 10))
      rw [List.length_append] at hlen
      simp only [List.length_cons, List.length_nil] at hlen
      omega
    · rw [digitsBE_ge hm, digitsBE_lt hn] at h
      have hlen := congrArg List.length h
      have hpos := List.length_pos.mpr (digitsBE_ne_nil (m / 10))
      rw [List.length_append] at hlen
      simp only [List.length_cons, List.length_nil] at hlen
      omega
    · rw [digitsBE_ge hm, digitsBE_ge hn] at h
      have hparts := List.append_inj' h (by simp)
      have hdiv : m / 10 = n / 10 :=
        ih (m / 10) (Nat.div_lt_self (by omega) (by omega)) (n / 10) hparts.1
      have hmod : m % 10 = n % 10 := by
        have h2 := hparts.2
        simp at h2
        exact digitChar_inj_lt (m % 10) (Nat.mod_lt _ (by omega)) (n % 10)
          (Nat.mod_lt _ (by omega)) h2
      omega

/-- The ten decimal digit characters. -/
def decDigits : List Char := ['0', '1', '2', '3', '4', '5', '6', '7', '8', '9']

theorem digitChar_mem_decDigits : ∀ a < 10, Nat.digitChar a ∈ decDigits := by decide

theorem digitsBE_subset_decDigits : ∀ n, ∀ c ∈ digitsBE n, c ∈ decDigits := by
  intro n
  induction n using Nat.strong_induction_on with
  | _ n ih =>
    intro c hc
    by_cases hn : n < 10
    · rw [digitsBE_lt hn] at hc
      simp at hc
      exact hc ▸ digitChar_mem_decDigits n hn
    · rw [digitsBE_ge hn] at hc
      rcases List.mem_append.mp hc with hc | hc
      · exact ih (n / 10) (Nat.div_lt_self (by omega) (by omega)) c hc
      · rw [List.mem_singleton] at hc
        exact hc ▸ digitChar_mem_decDigits (n % 10) (Nat.mod_lt _ (by omega))

theorem uscore_not_mem_repr (n : Nat) : '_' ∉ (Nat.repr n).data := by
  rw [repr_data_eq]
  intro h
  have := digitsBE_subset_decDigits n _ h
  revert this
  decide

theorem append_split_at_uscore :
    ∀ (l1 l2 r1 r2 : List Char), l1 ++ r1 = l2 ++ r2 →
      '_' ∉ l1 → '_' ∉ l2 →
      (∃ t, r1 = '_' :: t) → (∃ t, r2 = '_' :: t) →
      l1 = l2 ∧ r1 = r2 := by
  intro l1
  induction l1 with
  | nil =>
    intro l2 r1 r2 h _ h2 hr1 _
    cases l2 with
    | nil => simpa using h
    | cons a t2 =>
      obtain ⟨t, ht⟩ := hr1
      rw [ht] at h
      simp at h
      exact absurd (h.1 ▸ List.mem_cons_self a t2) h2
  | cons a t1 ih =>
    intro l2 r1 r2 h h1 h2 hr1 hr2
    cases l2 with
    | nil =>
      obtain ⟨t, ht⟩ := hr2
      rw [ht] at h
      simp at h
      exact absurd (h.1 ▸ List.mem_cons_self a t1) h1
    | cons b t2 =>
      simp at h
      obtain ⟨hab, hrest⟩ := h
      have hres := ih t2 r1 r2 hrest (fun hm => h1 (List.mem_cons_of_mem _ hm))
        (fun hm => h2 (List.mem_cons_of_mem _ hm)) hr1 hr2
      exact ⟨by rw [hab, hres.1], hres.2⟩

/-! ### Step-key lemmas -/

theorem stepKey_data (i : Nat) (s : String) :
    (stepKey i s).data =
      's' :: 't' :: 'e' :: 'p' :: '_' :: ((Nat.repr i).data ++ s.data) := by
  show (("step_" ++ Nat.repr i) ++ s).data = _
  rw [String.data_append, String.data_append]
  rfl

theorem stepKey_inj {i j : Nat} {s1 s2 : String}
    (hs1 : ∃ t, s1.data = '_' :: t) (hs2 : ∃ t, s2.data = '_' :: t)
    (h : stepKey i s1 = stepKey j s2) : i = j ∧ s1 = s2 := by
  have hd := congrArg String.data h
  rw [stepKey_data, stepKey_data] at hd
  injection hd with _ hd
  injection hd with _ hd
  injection hd with _ hd
  injection hd with _ hd
  injection hd with _ hd
  have hsplit := append_split_at_uscore _ _ _ _ hd (uscore_not_mem_repr i)
    (uscore_not_mem_repr j) hs1 hs2
  refine ⟨?_, String.ext hsplit.2⟩
  apply digitsBE_inj
  rw [← repr_data_eq, ← repr_data_eq, hsplit.1]

theorem uscore_head_result : ∃ t, ("_result" : String).data = '_' :: t := ⟨_, rfl⟩

theorem uscore_head_agent : ∃ t, ("_agent" : String).data = '_' :: t := ⟨_, rfl⟩

theorem uscore_head_error : ∃ t, ("_error" : String).data = '_' :: t := ⟨_, rfl⟩

theorem stepKey_ne_error_key (i : Nat) (s : String) : stepKey i s ≠ "error" := by
  intro h
  have h2 := congrArg String.data h
  rw [stepKey_data] at h2
  have h3 : ("error" : String).data = ['e', 'r', 'r', 'o', 'r'] := rfl
  rw [h3] at h2
  injection h2 with hc _
  exact absurd hc (by decide)

theorem stepKey_ne_original_query (i : Nat) (s : String) :
    stepKey i s ≠ "original_query" := by
  intro h
  have h2 := congrArg String.data h
  rw [stepKey_data] at h2
  have h3 : ("original_query" : String).data =
      ['o', 'r', 'i', 'g', 'i', 'n', 'a', 'l', '_', 'q', 'u', 'e', 'r', 'y'] := rfl
  rw [h3] at h2
  injection h2 with hc _
  exact absurd hc (by decide)

/-! ### Execution-loop lemmas -/

theorem execStep_contains_mono (agents : Assoc Agent) (q : String) (i : Nat)
    (st : Step) (s : Assoc PyVal × PyVal) (key : String)
    (h : Assoc.contains s.1 key = true) :
    Assoc.contains (execStep agents q i st s).1 key = true := by
  simp only [execStep]
  split
  · exact Assoc.contains_set_mono _ _ _ _ h
  · split
    · exact Assoc.contains_set_mono _ _ _ _ (Assoc.contains_set_mono _ _ _ _
        (Assoc.contains_set_mono _ _ _ _ h))
    · exact Assoc.contains_set_mono _ _ _ _ h

theorem execLoop_contains_mono (agents : Assoc Agent) (q : String) :
    ∀ (steps : List Step) (i : Nat) (s : Assoc PyVal × PyVal) (key : String),
      Assoc.contains s.1 key = true →
      Assoc.contains (execLoop agents q i steps s).1 key = true := by
  intro steps
  induction steps with
  | nil => intro i s key h; exact h
  | cons st rest ih =>
    intro i s key h
    exact ih (i + 1) _ key (execStep_contains_mono _ _ _ _ _ _ h)

theorem execLoop_append (agents : Assoc Agent) (q : String) :
    ∀ (l1 l2 : List Step) (i : Nat) (s : Assoc PyVal × PyVal),
      execLoop agents q i (l1 ++ l2) s =
        execLoop agents q (i + l1.length) l2 (execLoop agents q i l1 s) := by
  intro l1
  induction l1 with
  | nil => intro l2 i s; simp [execLoop]
  | cons st rest ih =>
    intro l2 i s
    simp only [List.cons_append, execLoop, List.length_cons]
    rw [List.append_eq, ih]
    have h : i + 1 + rest.length = i + (rest.length + 1) := by omega
    rw [h]

theorem execStep_writes (agents : Assoc Agent) (q : String) (i : Nat) (st : Step)
    (s : Assoc PyVal × PyVal) :
    Assoc.contains (execStep agents q i st s).1
      (stepKey i (if stepSucceeds agents q st s then "_result" else "_error")) = true := by
  cases hg : get_agent_fuzzy agents st.agent with
  | none =>
    simp only [execStep, stepSucceeds, hg]
    simp [Assoc.contains, Assoc.get?_set_self]
  | some ag =>
    cases hp : ag.process (mkPayload st s.1
        (content_to_process st.input_data q s.2) ag.name) with
    | ok r =>
      simp only [execStep, stepSucceeds, hg, hp, if_true]
      exact Assoc.contains_set_mono _ _ _ _ (Assoc.contains_set_mono _ _ _ _
        (by simp [Assoc.contains, Assoc.get?_set_self]))
    | error e =>
      simp only [execStep, stepSucceeds, hg, hp, if_false]
      simp [Assoc.contains, Assoc.get?_set_self]

/-! ### Claims -/

/-- C1, counterexample: with both `analysis` and `extracted_data` present in
the incoming `last_result` mapping and `input_data ≠ "USER_QUERY"`, the code
synthesizes the JSON form of `extracted_data` (the later of the two `if`
assignments on lines 112-113 of `orchestrator.py` wins), not the `analysis`
value the claim prefers. -/
theorem claim1_counterexample :
    content_to_process "PREVIOUS_RESULT" "q"
        (.dict [("analysis", .str "A"), ("extracted_data", .str "B")]) =
      PyVal.str "\x22B\x22" ∧
    content_to_process "PREVIOUS_RESULT" "q"
        (.dict [("analysis", .str "A"), ("extracted_data", .str "B")]) ≠
      PyVal.str "A" := by
  refine ⟨rfl, fun h => ?_⟩
  injection h with h2
  exact absurd h2 (by decide)

/-- C1 (amended): for a non-`"USER_QUERY"` step whose incoming `last_result`
is a mapping, the synthesized `content_to_process` is the JSON-serialized
`extracted_data` value when that key is present (preferring it), else the
`analysis` value when present, else the mapping's generic string form. -/
theorem claim1_amended (input_source user_query : String) (d : Assoc PyVal)
    (h : input_source ≠ "USER_QUERY") :
    content_to_process input_source user_query (.dict d) =
      match Assoc.get? d "extracted_data" with
      | some v => PyVal.str (jsonDumps v)
      | Option.none =>
        match Assoc.get? d "analysis" with
        | some v => v
        | Option.none => PyVal.str (pyStr (.dict d)) := by
  cases hx : Assoc.get? d "extracted_data" with
  | none =>
    cases hy : Assoc.get? d "analysis" with
    | none => simp [content_to_process, if_neg h, hx, hy]
    | some v => simp [content_to_process, if_neg h, hx, hy]
  | some v => simp [content_to_process, if_neg h, hx]

/-- Witness for C1 (amended) at a concrete input. -/
theorem claim1_amended_witness :
    ("PREVIOUS_RESULT" : String) ≠ "USER_QUERY" ∧
    content_to_process "PREVIOUS_RESULT" "q" (.dict [("extracted_data", .int 3)]) =
      PyVal.str "3" := by
  refine ⟨by decide, ?_⟩
  have h2 := claim1_amended "PREVIOUS_RESULT" "q" [("extracted_data", .int 3)] (by decide)
  rw [h2]
  rfl

/-- C2, counterexample: `DocumentAnalysisAgent.process` raises `KeyError` on
a payload without the declared-required key `text` (line 33 of
`doc_analysis_agent.py` indexes `input_data["text"]` unconditionally, outside
the `try`), so it does not return an `error` mapping for every input. -/
theorem claim2_counterexample :
    docAnalysisProcess (fun _ => Except.ok "ok") [] =
      Except.error "KeyError: text" := rfl

/-- C2 (amended): for every payload carrying a string under `text`,
`DocumentAnalysisAgent.process` returns a mapping and never raises; a
backend failure is caught and surfaced as `{"error": message}`, and the
required-keys validator itself only reports, never raises. -/
theorem claim2_amended (gen : String → Except String String)
    (input_data : Assoc PyVal) (s : String)
    (h : Assoc.get? input_data "text" = some (.str s)) :
    ∃ r : Assoc PyVal,
      docAnalysisProcess gen input_data = Except.ok (.dict r) ∧
      validate_input input_data ["text"] = true ∧
      ∀ e, gen (docAnalysisPrompt (.str (s.take 10000))
          ((Assoc.get? input_data "task").getD (PyVal.str "summarize"))) =
            Except.error e →
        r = [("error", PyVal.str e)] := by
  have hval : validate_input input_data ["text"] = true := by
    simp [validate_input, Assoc.contains, h]
  cases hg : gen (docAnalysisPrompt (.str (s.take 10000))
      ((Assoc.get? input_data "task").getD (PyVal.str "summarize"))) with
  | ok resp =>
    refine ⟨[("analysis", .str resp)], ?_, hval, ?_⟩
    · simp [docAnalysisProcess, h, pySlice, hg]
    · intro e he
      exact absurd he (by simp)
  | error e0 =>
    refine ⟨[("error", .str e0)], ?_, hval, ?_⟩
    · simp [docAnalysisProcess, h, pySlice, hg]
    · intro e he
      injection he with he2
      rw [he2]

/-- Witness for C2 (amended) at a concrete input with a failing backend. -/
theorem claim2_amended_witness :
    ∃ r : Assoc PyVal,
      docAnalysisProcess (fun _ => Except.error "down")
          [("text", PyVal.str "doc")] = Except.ok (.dict r) ∧
      validate_input [("text", PyVal.str "doc")] ["text"] = true ∧
      ∀ e, (fun _ => (Except.error "down" : Except String String))
          (docAnalysisPrompt (.str (("doc" : String).take 10000))
            ((Assoc.get? [("text", PyVal.str "doc")] "task").getD
              (PyVal.str "summarize"))) = Except.error e →
        r = [("error", PyVal.str e)] :=
  claim2_amended (fun _ => Except.error "down") [("text", PyVal.str "doc")] "doc" rfl

/-- C3: when plan generation fails (the backend call raises, or the response
does not parse as JSON), `plan_task` re-raises, `run` returns exactly the
single-key mapping `{"error": "Planning failed: <reason>"}`, and no
step-indexed key appears in the result (no step is executed: the loop is
never entered). -/
theorem claim3_planning_failure (agents : Assoc Agent) (q : String) (e : String)
    (parse : String → Except String PyVal) (genOutcome : Except String String)
    (h : genOutcome = Except.error e ∨
      ∃ s, genOutcome = Except.ok s ∧ parse s = Except.error e) :
    plan_task parse genOutcome = Except.error e ∧
    run agents q (Except.error e) =
      [("error", PyVal.str ("Planning failed: " ++ e))] ∧
    ∀ (k : Nat) (suf : String),
      Assoc.contains (run agents q (Except.error e)) (stepKey k suf) = false := by
  refine ⟨?_, rfl, ?_⟩
  · rcases h with h | ⟨s, hg, hp⟩
    · rw [h]; rfl
    · rw [hg]; simp [plan_task, hp]
  · intro k suf
    have hne : "error" ≠ stepKey k suf := fun hh => stepKey_ne_error_key k suf hh.symm
    simp [run, Assoc.contains, Assoc.get?, hne]

/-- Witness for C3 at a concrete transport failure. -/
theorem claim3_witness :
    plan_task (fun _ => Except.ok (.dict [])) (Except.error "boom") =
      Except.error "boom" ∧
    run [] "q" (Except.error "boom") =
      [("error", PyVal.str ("Planning failed: " ++ "boom"))] ∧
    Assoc.contains (run [] "q" (Except.error "boom")) (stepKey 0 "_result") = false :=
  ⟨(claim3_planning_failure [] "q" "boom" (fun _ => Except.ok (.dict []))
      (Except.error "boom") (Or.inl rfl)).1,
   (claim3_planning_failure [] "q" "boom" (fun _ => Except.ok (.dict []))
      (Except.error "boom") (Or.inl rfl)).2.1,
   (claim3_planning_failure [] "q" "boom" (fun _ => Except.ok (.dict []))
      (Except.error "boom") (Or.inl rfl)).2.2 0 "_result"⟩

/-- C6: a parsed plan object without a `steps` key yields the empty plan
(`plan.get("steps", [])`), the run executes no step, and the returned context
holds exactly the original query: no `error` key and no step-indexed key.
The same final context arises for any zero-step plan. -/
theorem claim6_empty_plan (agents : Assoc Agent) (q : String)
    (parse : String → Except String PyVal) (s : String) (d : Assoc PyVal)
    (hparse : parse s = Except.ok (.dict d))
    (hnosteps : Assoc.get? d "steps" = Option.none) :
    plan_task parse (Except.ok s) = Except.ok (.list []) ∧
    decodeSteps (.list []) = some [] ∧
    run agents q (Except.ok []) = [("original_query", PyVal.str q)] ∧
    Assoc.contains (run agents q (Except.ok [])) "error" = false ∧
    ∀ (k : Nat) (suf : String),
      Assoc.contains (run agents q (Except.ok [])) (stepKey k suf) = false := by
  refine ⟨?_, rfl, rfl, rfl, ?_⟩
  · simp [plan_task, hparse, hnosteps]
  · intro k suf
    have hne : "original_query" ≠ stepKey k suf :=
      fun hh => stepKey_ne_original_query k suf hh.symm
    simp [run, execLoop, initState, Assoc.contains, Assoc.get?, hne]

/-- Witness for C6 at a concrete parse outcome. -/
theorem claim6_witness :
    plan_task (fun _ => Except.ok (.dict [("plan", .str "x")])) (Except.ok "resp") =
      Except.ok (.list []) ∧
    run [] "q" (Except.ok []) = [("original_query", PyVal.str "q")] ∧
    Assoc.contains (run [] "q" (Except.ok [])) "error" = false ∧
    Assoc.contains (run [] "q" (Except.ok [])) (stepKey 0 "_error") = false :=
  ⟨(claim6_empty_plan [] "q" (fun _ => Except.ok (.dict [("plan", .str "x")]))
      "resp" [("plan", .str "x")] rfl rfl).1,
   (claim6_empty_plan [] "q" (fun _ => Except.ok (.dict [("plan", .str "x")]))
      "resp" [("plan", .str "x")] rfl rfl).2.2.1,
   (claim6_empty_plan [] "q" (fun _ => Except.ok (.dict [("plan", .str "x")]))
      "resp" [("plan", .str "x")] rfl rfl).2.2.2.1,
   (claim6_empty_plan [] "q" (fun _ => Except.ok (.dict [("plan", .str "x")]))
      "resp" [("plan", .str "x")] rfl rfl).2.2.2.2 0 "_error"⟩

/-- C7: the payload `execStep` hands to the resolved agent's `process`
populates every generic slot: `instruction`, the accumulated `context`,
`text` and `content` both equal to the synthesized content, `goal` and
`criteria` both equal to the instruction, and `fields` equal to
`["summary", "entities"]` exactly when the resolved agent's name contains
the substring `Extraction`, else the empty list. -/
theorem claim7_payload (st : Step) (context : Assoc PyVal) (content : PyVal)
    (agentName : String) :
    Assoc.get? (mkPayload st context content agentName) "instruction" =
      some (.str st.instruction) ∧
    Assoc.get? (mkPayload st context content agentName) "context" =
      some (.dict context) ∧
    Assoc.get? (mkPayload st context content agentName) "text" = some content ∧
    Assoc.get? (mkPayload st context content agentName) "content" = some content ∧
    Assoc.get? (mkPayload st context content agentName) "goal" =
      some (.str st.instruction) ∧
    Assoc.get? (mkPayload st context content agentName) "criteria" =
      some (.str st.instruction) ∧
    Assoc.get? (mkPayload st context content agentName) "fields" =
      some (if strContainsSub agentName "Extraction"
            then .list [.str "summary", .str "entities"] else .list []) :=
  ⟨rfl, rfl, rfl, rfl, rfl, rfl, rfl⟩

/-- C9: resolution is deterministic — two calls of `_get_agent_fuzzy` with
the same name against the same registry state produce the same outcome
(resolution reads the registry and mutates nothing; `difflib` is a pure
function of its arguments). -/
theorem claim9_deterministic (agents : Assoc Agent) (name : String) :
    (resolveTwice agents name).1 = (resolveTwice agents name).2 := rfl

/-- C10: when a step fails (agent unresolved, or `process` raises and the
coordinator catches it), `last_result` is left unchanged by that step, so the
next `"PREVIOUS_RESULT"` step consumes the most recent successful result —
initially the original user query. -/
theorem claim10_last_result_frame (agents : Assoc Agent) (q : String) (i : Nat)
    (st : Step) (s : Assoc PyVal × PyVal)
    (h : get_agent_fuzzy agents st.agent = Option.none ∨
      ∃ ag e, get_agent_fuzzy agents st.agent = some ag ∧
        ag.process (mkPayload st s.1
          (content_to_process st.input_data q s.2) ag.name) = Except.error e) :
    (execStep agents q i st s).2 = s.2 := by
  rcases h with h | ⟨ag, e, hag, hp⟩
  · simp [execStep, h]
  · simp [execStep, hag, hp]

/-- Witness for C10: a step whose agent cannot resolve leaves `last_result`
at the original query. -/
theorem claim10_witness :
    (execStep ([] : Assoc Agent) "q" 0
      { agent := "X", instruction := "i", input_data := "" } (initState "q")).2 =
      (initState "q").2 :=
  claim10_last_result_frame [] "q" 0
    { agent := "X", instruction := "i", input_data := "" } (initState "q") (Or.inl rfl)

/-- C4: for every plan, if step `k` fails (agent unresolvable, or `process`
raises) the returned context contains `step_k_error`, and every step `j` that
succeeds contributes `step_j_result`; the loop never aborts — each failing
step only records its error entry and execution continues (the run function
is total over the whole plan). -/
theorem claim4_step_isolation (agents : Assoc Agent) (q : String)
    (steps : List Step) (k : Nat) (hk : k < steps.length) :
    (stepSucceeds agents q (steps.get ⟨k, hk⟩) (statePair agents q steps k) = true →
      Assoc.contains (run agents q (Except.ok steps)) (stepKey k "_result") = true) ∧
    (stepSucceeds agents q (steps.get ⟨k, hk⟩) (statePair agents q steps k) = false →
      Assoc.contains (run agents q (Except.ok steps)) (stepKey k "_error") = true) := by
  have hlen : (steps.take k).length = k := by
    rw [List.length_take]
    omega
  have hdrop : steps.drop k = steps.get ⟨k, hk⟩ :: steps.drop (k + 1) :=
    List.drop_eq_getElem_cons hk
  have hrun : run agents q (Except.ok steps) =
      (execLoop agents q (k + 1) (steps.drop (k + 1))
        (execStep agents q k (steps.get ⟨k, hk⟩) (statePair agents q steps k))).1 := by
    show (execLoop agents q 0 steps (initState q)).1 = _
    conv_lhs => rw [← List.take_append_drop k steps]
    rw [execLoop_append, hlen, hdrop, Nat.zero_add]
    rfl
  constructor
  · intro hsucc
    have h1 := execStep_writes agents q k (steps.get ⟨k, hk⟩) (statePair agents q steps k)
    simp only [hsucc, if_true] at h1
    rw [hrun]
    exact execLoop_contains_mono agents q _ _ _ _ h1
  · intro hfail
    have h1 := execStep_writes agents q k (steps.get ⟨k, hk⟩) (statePair agents q steps k)
    rw [hfail] at h1
    simp only [Bool.false_eq_true, if_false] at h1
    rw [hrun]
    exact execLoop_contains_mono agents q _ _ _ _ h1

/-- Concrete agent used by witnesses: always returns `{"analysis": "r"}`. -/
def okAgent : Agent :=
  { name := "A", process := fun _ => Except.ok (.dict [("analysis", .str "r")]) }

/-- Concrete agent used by witnesses: `process` always raises. -/
def errAgent : Agent :=
  { name := "B", process := fun _ => Except.error "exploded" }

/-- Witness for C4: a two-step plan whose first step succeeds and whose
second step's agent raises; the final context holds `step_0_result` and
`step_1_error`. -/
theorem claim4_witness :
    Assoc.contains (run [("A", okAgent), ("B", errAgent)] "q" (Except.ok
      [{ agent := "A", instruction := "i", input_data := "USER_QUERY" },
       { agent := "B", instruction := "j", input_data := "" }]))
      (stepKey 0 "_result") = true ∧
    Assoc.contains (run [("A", okAgent), ("B", errAgent)] "q" (Except.ok
      [{ agent := "A", instruction := "i", input_data := "USER_QUERY" },
       { agent := "B", instruction := "j", input_data := "" }]))
      (stepKey 1 "_error") = true :=
  ⟨(claim4_step_isolation [("A", okAgent), ("B", errAgent)] "q"
      [{ agent := "A", instruction := "i", input_data := "USER_QUERY" },
       { agent := "B", instruction := "j", input_data := "" }]
      0 (by decide)).1 rfl,
   (claim4_step_isolation [("A", okAgent), ("B", errAgent)] "q"
      [{ agent := "A", instruction := "i", input_data := "USER_QUERY" },
       { agent := "B", instruction := "j", input_data := "" }]
      1 (by decide)).2 rfl⟩

/-! ### C8 infrastructure: the append-only context invariant -/

theorem Assoc.mem_keys_of_contains {α : Type} {d : Assoc α} {k : String}
    (h : Assoc.contains d k = true) : k ∈ d.map Prod.fst := by
  rw [Assoc.contains] at h
  cases hx : Assoc.get? d k with
  | none => rw [hx] at h; simp at h
  | some v => exact List.mem_map.mpr ⟨(k, v), Assoc.get?_mem hx, rfl⟩

/-- The step-key suffixes the loop writes. -/
def stepSufs : List String := ["_result", "_agent", "_error"]

theorem stepSufs_uscore : ∀ s ∈ stepSufs, ∃ t, s.data = '_' :: t := by
  intro s hs
  simp [stepSufs] at hs
  rcases hs with h | h | h <;> subst h
  · exact ⟨_, rfl⟩
  · exact ⟨_, rfl⟩
  · exact ⟨_, rfl⟩

/-- Keys that may occur in a run's context before step `i` executes: registry
keys, the initial `original_query` key, and step keys of earlier indices. -/
def CtxInv (agents : Assoc Agent) (i : Nat) (c : Assoc PyVal) : Prop :=
  ∀ key, Assoc.contains c key = true →
    Assoc.contains agents key = true ∨ key = "original_query" ∨
    ∃ j, j < i ∧ ∃ suf ∈ stepSufs, key = stepKey j suf

/-- The append-only relation between successive contexts: an existing key
keeps its value, except possibly a registered agent's latest-result slot. -/
def preservedInto (agents : Assoc Agent) (c c2 : Assoc PyVal) : Prop :=
  ∀ key v, Assoc.get? c key = some v →
    Assoc.get? c2 key = some v ∨ key ∈ agents.map Prod.fst

theorem get_agent_fuzzy_mem {agents : Assoc Agent} {name : String} {ag : Agent}
    (h : get_agent_fuzzy agents name = some ag) :
    ∃ k0, Assoc.get? agents k0 = some ag := by
  cases hx : Assoc.get? agents name with
  | some a =>
    simp only [get_agent_fuzzy, hx] at h
    exact ⟨name, by rw [hx, h]⟩
  | none =>
    simp only [get_agent_fuzzy, hx] at h
    cases hy : getCloseMatches1 name (agents.map Prod.fst) with
    | some best =>
      simp only [hy] at h
      exact ⟨best, h⟩
    | none =>
      simp only [hy] at h
      exact absurd h (by simp)

theorem execStep_preserves (agents : Assoc Agent) (q : String) (i : Nat)
    (st : Step) (s : Assoc PyVal × PyVal)
    (hReg : ∀ p ∈ agents, (Prod.snd p).name = p.1)
    (hInv : CtxInv agents i s.1) :
    preservedInto agents s.1 (execStep agents q i st s).1 := by
  intro key v hkey
  by_cases hmem : key ∈ agents.map Prod.fst
  · exact Or.inr hmem
  left
  have hcont : Assoc.contains s.1 key = true := by
    rw [Assoc.contains, hkey]; rfl
  have hne : ∀ suf ∈ stepSufs, key ≠ stepKey i suf := by
    intro suf hsuf hkeq
    rcases hInv key hcont with hc | hc | ⟨j, hj, suf0, hsuf0, hkey0⟩
    · exact hmem (Assoc.mem_keys_of_contains hc)
    · exact stepKey_ne_original_query i suf (by rw [← hkeq, hc])
    · have := stepKey_inj (stepSufs_uscore suf0 hsuf0) (stepSufs_uscore suf hsuf)
        (by rw [← hkey0, hkeq])
      omega
  cases hg : get_agent_fuzzy agents st.agent with
  | none =>
    simp only [execStep, hg]
    rw [Assoc.get?_set_ne _ _
      (fun h => hne "_error" (by simp [stepSufs]) h.symm)]
    exact hkey
  | some ag =>
    have hagmem : ag.name ∈ agents.map Prod.fst := by
      obtain ⟨k0, hk0⟩ := get_agent_fuzzy_mem hg
      have hmem0 := Assoc.get?_mem hk0
      have hname := hReg (k0, ag) hmem0
      rw [hname]
      exact List.mem_map.mpr ⟨(k0, ag), hmem0, rfl⟩
    have hne_ag : ag.name ≠ key := fun h => hmem (h ▸ hagmem)
    cases hp : ag.process (mkPayload st s.1
        (content_to_process st.input_data q s.2) ag.name) with
    | ok r =>
      simp only [execStep, hg, hp]
      rw [Assoc.get?_set_ne _ _ hne_ag,
        Assoc.get?_set_ne _ _ (fun h => hne "_agent" (by simp [stepSufs]) h.symm),
        Assoc.get?_set_ne _ _ (fun h => hne "_result" (by simp [stepSufs]) h.symm)]
      exact hkey
    | error e =>
      simp only [execStep, hg, hp]
      rw [Assoc.get?_set_ne _ _
        (fun h => hne "_error" (by simp [stepSufs]) h.symm)]
      exact hkey

theorem execStep_inv (agents : Assoc Agent) (q : String) (i : Nat) (st : Step)
    (s : Assoc PyVal × PyVal)
    (hReg : ∀ p ∈ agents, (Prod.snd p).name = p.1)
    (hInv : CtxInv agents i s.1) :
    CtxInv agents (i + 1) (execStep agents q i st s).1 := by
  have hmono : ∀ key, Assoc.contains s.1 key = true →
      Assoc.contains agents key = true ∨ key = "original_query" ∨
      ∃ j, j < i + 1 ∧ ∃ suf ∈ stepSufs, key = stepKey j suf := by
    intro key h
    rcases hInv key h with h | h | ⟨j, hj, suf, hsuf, hk⟩
    · exact Or.inl h
    · exact Or.inr (Or.inl h)
    · exact Or.inr (Or.inr ⟨j, by omega, suf, hsuf, hk⟩)
  intro key hkey
  cases hg : get_agent_fuzzy agents st.agent with
  | none =>
    simp only [execStep, hg] at hkey
    rcases Assoc.contains_set_elim _ _ _ _ hkey with h | h
    · exact Or.inr (Or.inr ⟨i, by omega, "_error", by simp [stepSufs], h⟩)
    · exact hmono key h
  | some ag =>
    have hagcont : Assoc.contains agents ag.name = true := by
      obtain ⟨k0, hk0⟩ := get_agent_fuzzy_mem hg
      have hname := hReg (k0, ag) (Assoc.get?_mem hk0)
      rw [hname, Assoc.contains, hk0]
      rfl
    cases hp : ag.process (mkPayload st s.1
        (content_to_process st.input_data q s.2) ag.name) with
    | ok r =>
      simp only [execStep, hg, hp] at hkey
      rcases Assoc.contains_set_elim _ _ _ _ hkey with h | h
      · exact Or.inl (by rw [h]; exact hagcont)
      rcases Assoc.contains_set_elim _ _ _ _ h with h | h
      · exact Or.inr (Or.inr ⟨i, by omega, "_agent", by simp [stepSufs], h⟩)
      rcases Assoc.contains_set_elim _ _ _ _ h with h | h
      · exact Or.inr (Or.inr ⟨i, by omega, "_result", by simp [stepSufs], h⟩)
      · exact hmono key h
    | error e =>
      simp only [execStep, hg, hp] at hkey
      rcases Assoc.contains_set_elim _ _ _ _ hkey with h | h
      · exact Or.inr (Or.inr ⟨i, by omega, "_error", by simp [stepSufs], h⟩)
      · exact hmono key h

theorem runTrace_chain (agents : Assoc Agent) (q : String)
    (hReg : ∀ p ∈ agents, (Prod.snd p).name = p.1) :
    ∀ (steps : List Step) (i : Nat) (s : Assoc PyVal × PyVal),
      CtxInv agents i s.1 →
      List.Chain' (preservedInto agents) (runTrace agents q i steps s) := by
  intro steps
  induction steps with
  | nil => intro i s _; simp [runTrace]
  | cons st rest ih =>
    intro i s hInv
    rw [runTrace, List.chain'_cons']
    constructor
    · intro y hy
      have hhead : (runTrace agents q (i + 1) rest (execStep agents q i st s)).head? =
          some (execStep agents q i st s).1 := by
        cases rest <;> rfl
      rw [hhead] at hy
      simp at hy
      rw [← hy]
      exact execStep_preserves agents q i st s hReg hInv
    · exact ih (i + 1) _ (execStep_inv agents q i st s hReg hInv)

/-- C8: during one run the context is append-only — along the whole trace of
contexts, a key once written keeps its value at every later point, with the
single exception of a registered agent's latest-result slot
(`context[agent_name]`); and that slot is indeed overwritten with the new
result each time a step resolved to that agent succeeds. -/
theorem claim8_append_only (agents : Assoc Agent) (q : String) (steps : List Step)
    (hReg : ∀ p ∈ agents, (Prod.snd p).name = p.1) :
    List.Chain' (preservedInto agents) (runTrace agents q 0 steps (initState q)) ∧
    ∀ (i : Nat) (st : Step) (s : Assoc PyVal × PyVal) (ag : Agent) (r : PyVal),
      get_agent_fuzzy agents st.agent = some ag →
      ag.process (mkPayload st s.1
        (content_to_process st.input_data q s.2) ag.name) = Except.ok r →
      Assoc.get? (execStep agents q i st s).1 ag.name = some r := by
  constructor
  · have hInit : CtxInv agents 0 (initState q).1 := by
      intro key hkey
      by_cases h : "original_query" = key
      · exact Or.inr (Or.inl h.symm)
      · exfalso
        simp [initState, Assoc.contains, Assoc.get?, h] at hkey
    exact runTrace_chain agents q hReg steps 0 (initState q) hInit
  · intro i st s ag r hg hp
    simp only [execStep, hg, hp]
    exact Assoc.get?_set_self _ _ _

/-- Witness for C8 at a concrete registry and plan. -/
theorem claim8_witness :
    List.Chain' (preservedInto [("A", okAgent)])
      (runTrace [("A", okAgent)] "q" 0
        [{ agent := "A", instruction := "i", input_data := "USER_QUERY" }]
        (initState "q")) ∧
    Assoc.get? (execStep [("A", okAgent)] "q" 0
        { agent := "A", instruction := "i", input_data := "USER_QUERY" }
        (initState "q")).1 "A" = some (.dict [("analysis", .str "r")]) := by
  have h := claim8_append_only [("A", okAgent)] "q"
    [{ agent := "A", instruction := "i", input_data := "USER_QUERY" }]
    (by intro p hp; rw [List.mem_singleton] at hp; subst hp; rfl)
  exact ⟨h.1, h.2 0 { agent := "A", instruction := "i", input_data := "USER_QUERY" }
    (initState "q") okAgent (.dict [("analysis", .str "r")]) rfl rfl⟩

/-! ### C5 infrastructure: the candidate order and `maxCand` -/

/-- The non-strict order on `(ratio, name)` pairs corresponding to Python's
tuple comparison. -/
def tupleLe (x y : Rat × String) : Prop :=
  x.1 < y.1 ∨ (x.1 = y.1 ∧ (strLtB x.2 y.2 = true ∨ x.2 = y.2))

theorem tupleLe_refl (x : Rat × String) : tupleLe x x := Or.inr ⟨rfl, Or.inr rfl⟩

theorem charListLt_cons (x y : Char) (xs ys : List Char) :
    charListLt (x :: xs) (y :: ys) = true ↔
      x < y ∨ (x = y ∧ charListLt xs ys = true) := by
  by_cases h1 : x < y
  · simp [charListLt, h1]
  · by_cases h2 : y < x
    · have hne : x ≠ y := fun he => absurd (he ▸ h2) (lt_irrefl x)
      simp [charListLt, h1, h2, hne]
    · have he : x = y := le_antisymm (not_lt.mp h2) (not_lt.mp h1)
      simp [charListLt, h1, h2, he]

theorem charListLt_trichotomy :
    ∀ (a b : List Char), charListLt a b = true ∨ charListLt b a = true ∨ a = b := by
  intro a
  induction a with
  | nil =>
    intro b
    cases b with
    | nil => right; right; rfl
    | cons y ys => left; rfl
  | cons x xs ih =>
    intro b
    cases b with
    | nil => right; left; rfl
    | cons y ys =>
      rcases lt_trichotomy x y with h | h | h
      · left; rw [charListLt_cons]; exact Or.inl h
      · rcases ih ys with h2 | h2 | h2
        · left; rw [charListLt_cons]; exact Or.inr ⟨h, h2⟩
        · right; left; rw [charListLt_cons]; exact Or.inr ⟨h.symm, h2⟩
        · right; right; rw [h, h2]
      · right; left; rw [charListLt_cons]; exact Or.inl h

theorem charListLt_trans :
    ∀ (a b c : List Char), charListLt a b = true → charListLt b c = true →
      charListLt a c = true := by
  intro a
  induction a with
  | nil =>
    intro b c hab hbc
    cases b with
    | nil => exact absurd hab (by simp [charListLt])
    | cons y ys =>
      cases c with
      | nil => exact absurd hbc (by simp [charListLt])
      | cons z zs => simp [charListLt]
  | cons x xs ih =>
    intro b c hab hbc
    cases b with
    | nil => exact absurd hab (by simp [charListLt])
    | cons y ys =>
      cases c with
      | nil => exact absurd hbc (by simp [charListLt])
      | cons z zs =>
        rw [charListLt_cons] at hab hbc ⊢
        rcases hab with h1 | ⟨h1, h1r⟩ <;> rcases hbc with h2 | ⟨h2, h2r⟩
        · exact Or.inl (lt_trans h1 h2)
        · exact Or.inl (h2 ▸ h1)
        · exact Or.inl (h1 ▸ h2)
        · exact Or.inr ⟨h1.trans h2, ih ys zs h1r h2r⟩

theorem strLtB_trans {a b c : String} (h1 : strLtB a b = true)
    (h2 : strLtB b c = true) : strLtB a c = true :=
  charListLt_trans _ _ _ h1 h2

theorem tupleLe_trans {x y z : Rat × String} (h1 : tupleLe x y)
    (h2 : tupleLe y z) : tupleLe x z := by
  rcases h1 with h1 | ⟨h1, h1s⟩ <;> rcases h2 with h2 | ⟨h2, h2s⟩
  · exact Or.inl (lt_trans h1 h2)
  · exact Or.inl (h2 ▸ h1)
  · exact Or.inl (h1 ▸ h2)
  · refine Or.inr ⟨h1.trans h2, ?_⟩
    rcases h1s with h1s | h1s <;> rcases h2s with h2s | h2s
    · exact Or.inl (strLtB_trans h1s h2s)
    · exact Or.inl (h2s ▸ h1s)
    · exact Or.inl (h1s ▸ h2s)
    · exact Or.inr (h1s.trans h2s)

theorem tupleGtB_true_le {c b : Rat × String} (h : tupleGtB c b = true) :
    tupleLe b c := by
  rw [tupleGtB] at h
  by_cases h1 : b.1 < c.1
  · exact Or.inl h1
  · rw [if_neg h1] at h
    by_cases h2 : c.1 = b.1
    · rw [if_pos h2] at h
      exact Or.inr ⟨h2.symm, Or.inl h⟩
    · rw [if_neg h2] at h
      exact absurd h (by simp)

theorem tupleGtB_false_le {c b : Rat × String} (h : tupleGtB c b = false) :
    tupleLe c b := by
  rw [tupleGtB] at h
  by_cases h1 : b.1 < c.1
  · rw [if_pos h1] at h
    exact absurd h (by simp)
  · rw [if_neg h1] at h
    by_cases h2 : c.1 = b.1
    · rw [if_pos h2] at h
      rcases charListLt_trichotomy c.2.data b.2.data with h3 | h3 | h3
      · exact Or.inr ⟨h2, Or.inl h3⟩
      · rw [strLtB] at h
        rw [h] at h3
        exact absurd h3 (by simp)
      · exact Or.inr ⟨h2, Or.inr (String.ext h3)⟩
    · exact Or.inl (lt_of_le_of_ne (not_lt.mp h1) h2)

theorem maxCand_some_spec :
    ∀ (l : List (Rat × String)) (b m : Rat × String),
      maxCand (some b) l = some m →
      tupleLe b m ∧ (m = b ∨ m ∈ l) ∧ ∀ x ∈ l, tupleLe x m := by
  intro l
  induction l with
  | nil =>
    intro b m h
    rw [maxCand] at h
    injection h with h
    subst h
    exact ⟨tupleLe_refl _, Or.inl rfl, by simp⟩
  | cons c rest ih =>
    intro b m h
    rw [maxCand] at h
    obtain ⟨hle, hmem, hall⟩ := ih (if tupleGtB c b then c else b) m h
    have hb_le : tupleLe b (if tupleGtB c b then c else b) := by
      by_cases hgt : tupleGtB c b = true
      · rw [if_pos hgt]
        exact tupleGtB_true_le hgt
      · rw [if_neg hgt]
        exact tupleLe_refl b
    have hc_le : tupleLe c (if tupleGtB c b then c else b) := by
      by_cases hgt : tupleGtB c b = true
      · rw [if_pos hgt]
        exact tupleLe_refl c
      · rw [if_neg hgt]
        exact tupleGtB_false_le (Bool.eq_false_iff.mpr hgt)
    refine ⟨tupleLe_trans hb_le hle, ?_, ?_⟩
    · rcases hmem with h2 | h2
      · by_cases hgt : tupleGtB c b = true
        · rw [if_pos hgt] at h2
          exact Or.inr (h2 ▸ List.mem_cons_self c rest)
        · rw [if_neg hgt] at h2
          exact Or.inl h2
      · exact Or.inr (List.mem_cons_of_mem _ h2)
    · intro x hx
      rcases List.mem_cons.mp hx with h2 | h2
      · exact h2 ▸ tupleLe_trans hc_le hle
      · exact hall x h2

theorem maxCand_none_spec {l : List (Rat × String)} {m : Rat × String}
    (h : maxCand Option.none l = some m) : m ∈ l ∧ ∀ x ∈ l, tupleLe x m := by
  cases l with
  | nil => rw [maxCand] at h; exact absurd h (by simp)
  | cons c rest =>
    rw [maxCand] at h
    obtain ⟨hle, hmem, hall⟩ := maxCand_some_spec rest c m h
    refine ⟨?_, ?_⟩
    · rcases hmem with h2 | h2
      · rw [h2]; exact List.mem_cons_self _ _
      · exact List.mem_cons_of_mem _ h2
    · intro x hx
      rcases List.mem_cons.mp hx with h2 | h2
      · exact h2 ▸ hle
      · exact hall x h2

theorem maxCand_some_isSome :
    ∀ (l : List (Rat × String)) (b : Rat × String),
      ∃ m, maxCand (some b) l = some m := by
  intro l
  induction l with
  | nil => intro b; exact ⟨b, rfl⟩
  | cons c rest ih =>
    intro b
    rw [maxCand]
    exact ih _

theorem maxCand_none_eq_nil {l : List (Rat × String)}
    (h : maxCand Option.none l = Option.none) : l = [] := by
  cases l with
  | nil => rfl
  | cons c rest =>
    rw [maxCand] at h
    obtain ⟨m, hm⟩ := maxCand_some_isSome rest c
    rw [hm] at h
    exact absurd h (by simp)

theorem getCloseMatches1_none_iff (word : String) (poss : List String) :
    getCloseMatches1 word poss = Option.none ↔
      ∀ x ∈ poss, ¬ ((3 : Rat) / 5 ≤ seqRatio x word) := by
  rw [getCloseMatches1]
  constructor
  · intro h x hx hr
    rw [Option.map_eq_none'] at h
    have hnil := maxCand_none_eq_nil h
    have : candScore word x = Option.none :=
      List.filterMap_eq_nil_iff.mp hnil x hx
    rw [candScore, if_pos hr] at this
    exact absurd this (by simp)
  · intro h
    have hnil : poss.filterMap (candScore word) = [] := by
      rw [List.filterMap_eq_nil_iff]
      intro x hx
      rw [candScore, if_neg (h x hx)]
    rw [hnil]
    rfl

theorem getCloseMatches1_some_spec {word : String} {poss : List String}
    {best : String} (h : getCloseMatches1 word poss = some best) :
    best ∈ poss ∧ (3 : Rat) / 5 ≤ seqRatio best word ∧
    ∀ x ∈ poss, (3 : Rat) / 5 ≤ seqRatio x word →
      tupleLe (seqRatio x word, x) (seqRatio best word, best) := by
  rw [getCloseMatches1] at h
  cases hm : maxCand Option.none (poss.filterMap (candScore word)) with
  | none => rw [hm] at h; exact absurd h (by simp)
  | some m =>
    rw [hm] at h
    rw [Option.map_eq_some'] at h
    obtain ⟨m2, hm2, hsnd⟩ := h
    injection hm2 with hm2
    subst hm2
    obtain ⟨hmem, hall⟩ := maxCand_none_spec hm
    rw [List.mem_filterMap] at hmem
    obtain ⟨x, hx, hfx⟩ := hmem
    by_cases hc : (3 : Rat) / 5 ≤ seqRatio x word
    · rw [candScore, if_pos hc] at hfx
      injection hfx with hfx
      have hxbest : x = best := by
        have h2 := congrArg Prod.snd hfx
        simpa using h2.trans hsnd
      subst hxbest
      have hmeq : m = (seqRatio x word, x) := hfx.symm
      subst hmeq
      refine ⟨hx, hc, ?_⟩
      intro x2 hx2 hc2
      have hmem2 : (seqRatio x2 word, x2) ∈ poss.filterMap (candScore word) :=
        List.mem_filterMap.mpr ⟨x2, hx2, by rw [candScore, if_pos hc2]⟩
      exact hall _ hmem2
    · rw [candScore, if_neg hc] at hfx
      exact absurd hfx (by simp)

/-- C5: for a name that is a registry key, resolution returns exactly the
agent stored under it (the fuzzy matcher is bypassed).  On a miss, resolution
fails when no registered name reaches ratio `3/5` (the code's
`cutoff=0.6`, an inclusive bound attained exactly at 0.6, hence the spec's
"about 0.6"), and otherwise returns the agent stored under the single best
candidate: a registered name above the cutoff that is greatest in the
`(ratio, name)` order among all registered names above the cutoff. -/
theorem claim5_resolution (agents : Assoc Agent) (name : String) :
    (∀ a, Assoc.get? agents name = some a → get_agent_fuzzy agents name = some a) ∧
    (Assoc.get? agents name = Option.none →
      ((∀ x ∈ agents.map Prod.fst, ¬ ((3 : Rat) / 5 ≤ seqRatio x name)) →
        get_agent_fuzzy agents name = Option.none) ∧
      (∀ best, getCloseMatches1 name (agents.map Prod.fst) = some best →
        get_agent_fuzzy agents name = Assoc.get? agents best ∧
        best ∈ agents.map Prod.fst ∧
        (3 : Rat) / 5 ≤ seqRatio best name ∧
        ∀ x ∈ agents.map Prod.fst, (3 : Rat) / 5 ≤ seqRatio x name →
          tupleLe (seqRatio x name, x) (seqRatio best name, best))) := by
  refine ⟨?_, fun hmiss => ⟨?_, ?_⟩⟩
  · intro a ha
    simp [get_agent_fuzzy, ha]
  · intro hall
    have hnone := (getCloseMatches1_none_iff name (agents.map Prod.fst)).mpr hall
    simp [get_agent_fuzzy, hmiss, hnone]
  · intro best hbest
    obtain ⟨hmem, hr, hmax⟩ := getCloseMatches1_some_spec hbest
    exact ⟨by simp [get_agent_fuzzy, hmiss, hbest], hmem, hr, hmax⟩

/-- Witness for C5: the misspelling `abcx` fuzzily resolves against the
registered name `abcd` (ratio `6/8 = 3/4 ≥ 3/5`). -/
theorem claim5_witness :
    get_agent_fuzzy [("abcd", okAgent)] "abcx" =
      Assoc.get? [("abcd", okAgent)] "abcd" ∧
    ("abcd" : String) ∈ ([("abcd", okAgent)] : Assoc Agent).map Prod.fst ∧
    (3 : Rat) / 5 ≤ seqRatio "abcd" "abcx" := by
  have hcut : (3 : Rat) / 5 ≤ seqRatio "abcd" "abcx" := by
    have h0 : seqRatio "abcd" "abcx" =
        ((6 : Nat) : Rat) / ((8 : Nat) : Rat) := rfl
    rw [h0]
    norm_num
  have hmiss : Assoc.get? [("abcd", okAgent)] "abcx" = Option.none := by
    simp [Assoc.get?]
  have hbest : getCloseMatches1 "abcx"
      (([("abcd", okAgent)] : Assoc Agent).map Prod.fst) = some "abcd" := by
    show (maxCand Option.none ([("abcd" : String)].filterMap (candScore "abcx"))).map
      Prod.snd = some "abcd"
    rw [List.filterMap_cons, candScore, if_pos hcut]
    rfl
  have h := ((claim5_resolution [("abcd", okAgent)] "abcx").2 hmiss).2 "abcd" hbest
  exact ⟨h.1, h.2.1, h.2.2.1⟩
